import Mathlib

/-!
Verification model of `infura-extract.js` (src/unnamed/part_006), the
block-retrieval-and-caching engine: the BigInt-preserving JSON codec
(`replacer`/`reviver`), the tiered cache (`getBlock`), the retry loop with
backoff, the range parsing and the address-extraction main loop.
-/

namespace InfuraExtract

/-! ## Decimal printing and parsing

Models of `BigInt.prototype.toString` (canonical decimal representation)
and of the decimal fragment of the JS `BigInt(string)` constructor. -/

/-- The decimal digit character for `d` (`d < 10`; other inputs are unreachable
from `n % 10` and map to `'0'`). -/
def decChar : Nat → Char
  | 0 => '0' | 1 => '1' | 2 => '2' | 3 => '3' | 4 => '4'
  | 5 => '5' | 6 => '6' | 7 => '7' | 8 => '8' | 9 => '9'
  | _ => '0'

/-- Little-endian is avoided: most-significant digit first, built by recursion
on `n / 10`. -/
def natDigits (n : Nat) : List Char :=
  if _h : n < 10 then [decChar n]
  else natDigits (n / 10) ++ [decChar (n % 10)]
termination_by n
decreasing_by exact Nat.div_lt_self (by omega) (by omega)

/-- Canonical decimal string of a natural number, as `toString()` prints it. -/
def decimalOfNat (n : Nat) : String := String.mk (natDigits n)

/-- Canonical decimal string of an integer, as JS `BigInt.toString()` prints it. -/
def decimalOfInt : Int → String
  | Int.ofNat n => decimalOfNat n
  | Int.negSucc n => "-" ++ decimalOfNat (n + 1)

/-- Numeric value of a decimal digit character, `none` otherwise. -/
def digitVal (c : Char) : Option Nat :=
  if '0' ≤ c ∧ c ≤ '9' then some (c.toNat - '0'.toNat) else none

/-- Fold decimal digits onto an accumulator; fails on a non-digit. -/
def parseDecCore : List Char → Nat → Option Nat
  | [], acc => some acc
  | c :: cs, acc =>
    match digitVal c with
    | some d => parseDecCore cs (acc * 10 + d)
    | none => none

/-- Parse a non-empty all-decimal-digit character list. -/
def parseDecDigits (cs : List Char) : Option Nat :=
  if cs.isEmpty then none else parseDecCore cs 0

/-- JS string whitespace (the forms relevant to argv/codec inputs). -/
def isWs (c : Char) : Bool :=
  c = ' ' || c = '\t' || c = '\n' || c = '\r'

/-- Model of the JS `BigInt(string)` conversion on its decimal fragment:
whitespace is trimmed, an empty remainder yields `0n`, an optional sign is
followed by decimal digits, and anything else throws (here: `none`).
`BigInt()` also accepts `0x`/`0o`/`0b` prefixes; the codec only ever feeds it
canonical decimal strings, so that fragment is not modelled. -/
def jsBigIntOfString (s : String) : Option Int :=
  let cs := ((s.toList.dropWhile isWs).reverse.dropWhile isWs).reverse
  match cs with
  | [] => some 0
  | c :: rest =>
    if c = '-' then (parseDecDigits rest).map (fun n => -(n : Int))
    else if c = '+' then (parseDecDigits rest).map (fun n => (n : Int))
    else (parseDecDigits (c :: rest)).map (fun n => (n : Int))

/-! ## JSON value model

A JS value as seen by `JSON.stringify`/`JSON.parse`: `jnum` is an ordinary
JSON numeric literal, `jbig` a JS BigInt (which only exists in memory — the
wire form produced by `replacer` never contains one).  Object fields keep
insertion order, as JS objects do. -/

inductive JVal where
  | jnull
  | jbool (b : Bool)
  | jnum (n : Int)
  | jstr (s : String)
  | jbig (n : Int)
  | jarr (xs : List JVal)
  | jobj (fields : List (String × JVal))
deriving Repr

mutual
/-- Model of `JSON.stringify(·, replacer)` at the value level (part_006 lines 100-109):
every BigInt, at any depth, becomes the tagged object
`{type: "BigInt", value: n.toString()}`; everything else is kept. -/
def encodeVal : JVal → JVal
  | .jbig n => .jobj [("type", .jstr "BigInt"), ("value", .jstr (decimalOfInt n))]
  | .jarr xs => .jarr (encodeList xs)
  | .jobj fs => .jobj (encodeFields fs)
  | v => v

/-- The map of `encodeVal` over an array's elements. -/
def encodeList : List JVal → List JVal
  | [] => []
  | x :: xs => encodeVal x :: encodeList xs

/-- The map of `encodeVal` over an object's fields. -/
def encodeFields : List (String × JVal) → List (String × JVal)
  | [] => []
  | (k, v) :: fs => (k, encodeVal v) :: encodeFields fs
end

mutual
/-- Model of `JSON.parse(·, reviver)` at the value level (part_006 lines 112-118):
the reviver runs bottom-up; an object whose `type` field is the string
`"BigInt"` is replaced by `BigInt(value.value)` (a throw is `none`).
Arrays are `typeof "object"` too but have no `type` property, so they are
never converted. -/
def decodeVal : JVal → Option JVal
  | .jarr xs => (decodeList xs).map .jarr
  | .jobj fs =>
    match decodeFields fs with
    | none => none
    | some fs' =>
      match fs'.lookup "type" with
      | some (.jstr "BigInt") =>
        match fs'.lookup "value" with
        | some (.jstr s) => (jsBigIntOfString s).map .jbig
        | some (.jnum n) => some (.jbig n)
        | _ => none
      | _ => some (.jobj fs')
  | v => some v

/-- The map of `decodeVal` over an array's elements. -/
def decodeList : List JVal → Option (List JVal)
  | [] => some []
  | x :: xs =>
    match decodeVal x, decodeList xs with
    | some y, some ys => some (y :: ys)
    | _, _ => none

/-- The map of `decodeVal` over an object's fields (children first: the reviver is
bottom-up). -/
def decodeFields : List (String × JVal) → Option (List (String × JVal))
  | [] => some []
  | (k, v) :: fs =>
    match decodeVal v, decodeFields fs with
    | some y, some ys => some ((k, y) :: ys)
    | _, _ => none
end

/-- Holds (`true`) iff an object field list is NOT shaped like the BigInt tag, i.e.
its `type` field (if any) is not the string `"BigInt"`. -/
def notTagShaped (fs : List (String × JVal)) : Bool :=
  match fs.lookup "type" with
  | some (.jstr s) => !(s == "BigInt")
  | _ => true

mutual
/-- Well-formedness of an in-memory record: no plain object already shaped
like the BigInt tag (its `type` field the string `"BigInt"`), and no
duplicate keys (JS objects cannot have two properties of the same name).
Actual provider block records satisfy this; without it the reviver would
turn a pre-existing tag-shaped object into a BigInt. -/
def wfVal : JVal → Bool
  | .jarr xs => wfList xs
  | .jobj fs =>
    decide (fs.map Prod.fst).Nodup && notTagShaped fs && wfFields fs
  | _ => true

/-- The conjunction of `wfVal` over an array's elements. -/
def wfList : List JVal → Bool
  | [] => true
  | x :: xs => wfVal x && wfList xs

/-- The conjunction of `wfVal` over an object's field values. -/
def wfFields : List (String × JVal) → Bool
  | [] => true
  | (_, v) :: fs => wfVal v && wfFields fs
end

mutual
/-- Holds (`true`) iff no BigInt value occurs anywhere in the value (the wire form
produced by `encodeVal` must satisfy this: `JSON.stringify` would throw on a
native BigInt that the replacer had not converted). -/
def noBig : JVal → Bool
  | .jbig _ => false
  | .jarr xs => noBigList xs
  | .jobj fs => noBigFields fs
  | _ => true

/-- The conjunction of `noBig` over an array's elements. -/
def noBigList : List JVal → Bool
  | [] => true
  | x :: xs => noBig x && noBigList xs

/-- The conjunction of `noBig` over an object's field values. -/
def noBigFields : List (String × JVal) → Bool
  | [] => true
  | (_, v) :: fs => noBig v && noBigFields fs
end

/-- JSON string escaping for the characters that can occur in block-record
strings. -/
def escapeChar (c : Char) : List Char :=
  if c = '"' then ['\\', '"']
  else if c = '\\' then ['\\', '\\']
  else if c = '\n' then ['\\', 'n']
  else if c = '\t' then ['\\', 't']
  else if c = '\r' then ['\\', 'r']
  else [c]

/-- A JSON string literal with quotes and escapes. -/
def serializeStr (s : String) : String :=
  "\"" ++ String.mk (s.toList.flatMap escapeChar) ++ "\""

mutual
/-- The byte form `JSON.stringify` prints for a wire value (field insertion
order preserved, no added whitespace — stringify is called with no spacing
argument).  The `jbig` case is unreachable on wire forms (stringify throws on
a native BigInt the replacer did not convert); it is given a value only for
totality. -/
def serialize : JVal → String
  | .jnull => "null"
  | .jbool b => if b then "true" else "false"
  | .jnum n => decimalOfInt n
  | .jstr s => serializeStr s
  | .jbig n => decimalOfInt n
  | .jarr xs => "[" ++ serializeList xs ++ "]"
  | .jobj fs => "\x7b" ++ serializeFields fs ++ "\x7d"

/-- Comma-joined serialization of array elements. -/
def serializeList : List JVal → String
  | [] => ""
  | [x] => serialize x
  | x :: xs => serialize x ++ "," ++ serializeList xs

/-- Comma-joined serialization of object fields. -/
def serializeFields : List (String × JVal) → String
  | [] => ""
  | [(k, v)] => serializeStr k ++ ":" ++ serialize v
  | (k, v) :: fs => serializeStr k ++ ":" ++ serialize v ++ "," ++ serializeFields fs
end

/-- The persisted byte form of a record — `JSON.stringify(x, replacer)`
(part_006 line 276). -/
def encode (x : JVal) : String := serialize (encodeVal x)

/-! ## Cache, fetch and extraction model

State-passing embedding of `getBlock` (part_006 lines 193-366) and the main
extraction loop (lines 401-416).  File-system and network interactions are
recorded as an explicit effect trace. -/

/-- One transaction of a block: `tx.from` is always printed; `tx.to` is
printed only when present (absent/null for contract creation). -/
structure Tx where
  fromAddr : String
  toAddr : Option String
deriving DecidableEq, Repr

/-- A decoded block record.  `transactions = none` models a value without a
`transactions` collection (possible for disk-decoded payloads, whose shape is
never validated). -/
structure BlockRecord where
  transactions : Option (List Tx)
deriving DecidableEq, Repr

/-- Result of one `web3.eth.getBlock` attempt: a resolved value (possibly
null) or a thrown error, with `rateLimited` true when `statusCode` is 429 or
529. -/
inductive RpcResult where
  | ok (b : Option BlockRecord)
  | err (rateLimited : Bool)
deriving DecidableEq, Repr

/-- An observable side effect of one `getBlock` call. -/
inductive Effect where
  | mkdirDir (shard : Nat)
  | readDisk (compressed : Bool) (n : Nat)
  | remoteCall (attempt : Nat)
  | sleep (ms : Nat)
  | writeDisk (compressed : Bool) (n : Nat)
deriving DecidableEq, Repr

/-- The ambient state one run sees: the startup capability probe results
(`ready`, `zstdAvailable`, part_006 lines 38-97), the in-memory cache, the
set of shard directories that exist, the disk contents and oracles for the
provider and for write success.

A disk file entry is `some (some b)` when the file exists and its
(decompression and) JSON decode succeeds with record `b`, `some none` when
the file exists but decoding fails, `none` when the file is absent.
`fetch n k` is the provider's response to attempt `k` (0-based) for block
`n`; `writeOk c n` tells whether writing the compressed (`c = true`) or
uncompressed representation of block `n` succeeds. -/
structure World where
  ready : Bool
  zstdAvailable : Bool
  memCache : List (Nat × BlockRecord)
  shardDirs : List Nat
  compFile : Nat → Option (Option BlockRecord)
  legacyFile : Nat → Option (Option BlockRecord)
  fetch : Nat → Nat → RpcResult
  writeOk : Bool → Nat → Bool

/-- Model of `getShardedPath` (lines 201-220): shard = `blockNum / 1,000,000`; the
shard directory is created (`fs.mkdirSync`) whenever it does not already
exist — a creation failure is caught and only logged, so it is modelled as
succeeding. -/
def ensureShard (w : World) (n : Nat) : World × List Effect :=
  let shard := n / 1000000
  if w.shardDirs.contains shard then (w, [])
  else ({ w with shardDirs := shard :: w.shardDirs }, [Effect.mkdirDir shard])

/-- The write-through after a successful fetch (lines 274-308): only when
`cacheDir.ready`; `getShardedPath` is called again; with zstd the compressed
file is written, falling back to the uncompressed file when that fails;
without zstd the uncompressed file is written.  Write failures are logged and
non-fatal; only successful writes appear in the trace and the disk state. -/
def writeThrough (w : World) (n : Nat) (b : BlockRecord) : World × List Effect :=
  if w.ready then
    let (w1, e1) := ensureShard w n
    if w1.zstdAvailable then
      if w1.writeOk true n then
        ({ w1 with compFile := fun m => if m = n then some (some b) else w1.compFile m },
         e1 ++ [Effect.writeDisk true n])
      else if w1.writeOk false n then
        ({ w1 with legacyFile := fun m => if m = n then some (some b) else w1.legacyFile m },
         e1 ++ [Effect.writeDisk false n])
      else (w1, e1)
    else
      if w1.writeOk false n then
        ({ w1 with legacyFile := fun m => if m = n then some (some b) else w1.legacyFile m },
         e1 ++ [Effect.writeDisk false n])
      else (w1, e1)
  else (w, [])

/-- The retry loop (lines 262-365): `while (attempts < 3)`, one provider call
per iteration.  A response is a success only when it is non-null and exposes
a `transactions` collection (`block && block.transactions`); on success the
record is stored in the memory cache and written through.  An empty result
increments the counter first and then sleeps `min(30s, 1s·2^attempts)`; a
thrown error sleeps `min(60s, 5s·2^attempts)` first when rate-limited, then
in every case sleeps `min(30s, 1s·2^attempts)` and increments.  Exhaustion
returns `none` (line 365). -/
def retryLoop (n : Nat) : Nat → Nat → World → Option BlockRecord × World × List Effect
  | 0, _, w => (none, w, [])
  | fuel + 1, k, w =>
    match w.fetch n k with
    | .ok (some b) =>
      match b.transactions with
      | some _ =>
        let w1 := { w with memCache := (n, b) :: w.memCache }
        let (w2, eW) := writeThrough w1 n b
        (some b, w2, Effect.remoteCall k :: eW)
      | none =>
        let (r, w', e') := retryLoop n fuel (k + 1) w
        (r, w', Effect.remoteCall k :: Effect.sleep (min 30000 (1000 * 2 ^ (k + 1))) :: e')
    | .ok none =>
      let (r, w', e') := retryLoop n fuel (k + 1) w
      (r, w', Effect.remoteCall k :: Effect.sleep (min 30000 (1000 * 2 ^ (k + 1))) :: e')
    | .err rl =>
      let rlSleeps := if rl then [Effect.sleep (min 60000 (5000 * 2 ^ k))] else []
      let (r, w', e') := retryLoop n fuel (k + 1) w
      (r, w',
        Effect.remoteCall k :: rlSleeps ++ Effect.sleep (min 30000 (1000 * 2 ^ k)) :: e')

/-- The disk tier probe (lines 225-259): nothing is read unless
`cacheDir.ready`; with zstd the compressed file is tried first, falling back
to the legacy uncompressed file on absence or decode failure; a decode
failure of either file is logged and treated as a miss. -/
def diskProbe (w : World) (n : Nat) : Option BlockRecord × List Effect :=
  if w.ready then
    match (if w.zstdAvailable then w.compFile n else none) with
    | some (some b) => (some b, [Effect.readDisk true n])
    | some none =>
      match w.legacyFile n with
      | some (some b) => (some b, [Effect.readDisk true n, Effect.readDisk false n])
      | some none => (none, [Effect.readDisk true n, Effect.readDisk false n])
      | none => (none, [Effect.readDisk true n])
    | none =>
      match w.legacyFile n with
      | some (some b) => (some b, [Effect.readDisk false n])
      | some none => (none, [Effect.readDisk false n])
      | none => (none, [])
  else (none, [])

/-- Model of `getBlock(blockNumber)` (lines 193-366): memory probe; then
`getShardedPath` (which eagerly ensures the shard directory, line 223); then
the disk probe, whose hit is stored into the memory cache and returned; then
the retry loop. -/
def getBlock (w : World) (n : Nat) : Option BlockRecord × World × List Effect :=
  match w.memCache.lookup n with
  | some b => (some b, w, [])
  | none =>
    let (w1, e1) := ensureShard w n
    match diskProbe w1 n with
    | (some b, eD) =>
      (some b, { w1 with memCache := (n, b) :: w1.memCache }, e1 ++ eD)
    | (none, eD) =>
      let (r, w2, eR) := retryLoop n 3 0 w1
      (r, w2, e1 ++ eD ++ eR)

/-- The addresses the main loop prints for one resolved block (lines
406-415): transactions in their given order, `tx.from` then `tx.to` when
present; nothing when the record is null or lacks a `transactions`
collection. -/
def extractBlock : Option BlockRecord → List String
  | none => []
  | some b =>
    match b.transactions with
    | none => []
    | some txs => txs.flatMap fun t => t.fromAddr :: t.toAddr.toList

/-- The main loop (lines 401-416) over a list of block numbers: each block is
fetched through the cache, its addresses are emitted, and processing
continues with the next number regardless of the outcome. -/
def processRange (w : World) : List Nat → World × List String × List Effect
  | [] => (w, [], [])
  | n :: rest =>
    let (r, w1, e1) := getBlock w n
    let (w2, out, e2) := processRange w1 rest
    (w2, extractBlock r ++ out, e1 ++ e2)

/-- Number of provider calls in a trace. -/
def remoteCount (es : List Effect) : Nat :=
  (es.filter fun e => match e with | .remoteCall _ => true | _ => false).length

/-- Number of successful disk writes in a trace. -/
def writeCount (es : List Effect) : Nat :=
  (es.filter fun e => match e with | .writeDisk _ _ => true | _ => false).length

/-- Number of disk reads in a trace. -/
def readCount (es : List Effect) : Nat :=
  (es.filter fun e => match e with | .readDisk _ _ => true | _ => false).length

/-- The backoff delays of a trace, in order. -/
def sleepsOf (es : List Effect) : List Nat :=
  es.filterMap fun e => match e with | .sleep ms => some ms | _ => none

/-- Holds (`true`) when a provider attempt outcome is a failure for the loop's
purposes: a thrown error, a null block, or a block without a `transactions`
collection. -/
def rpcFails : RpcResult → Bool
  | .ok (some b) => b.transactions.isNone
  | .ok none => true
  | .err _ => true

/-! ## Range parsing and the program pipeline

Model of the argument parsing (part_006 lines 146-187) and of `main`
(lines 369-419). -/

/-- Hexadecimal digit value, `none` otherwise. -/
def hexVal (c : Char) : Option Nat :=
  if '0' ≤ c ∧ c ≤ '9' then some (c.toNat - '0'.toNat)
  else if 'a' ≤ c ∧ c ≤ 'f' then some (c.toNat - 'a'.toNat + 10)
  else if 'A' ≤ c ∧ c ≤ 'F' then some (c.toNat - 'A'.toNat + 10)
  else none

/-- Accumulate the longest digit prefix in the given base, ignoring whatever
follows; `none` when no digit was seen at all. -/
def takeDigits (dv : Char → Option Nat) (base : Nat) :
    List Char → Nat → Bool → Option Nat
  | [], acc, seen => if seen then some acc else none
  | c :: rest, acc, seen =>
    match dv c with
    | some d => takeDigits dv base rest (acc * base + d) true
    | none => if seen then some acc else none

/-- Model of JS `parseInt(s)` (no radix argument): trim leading whitespace,
read an optional sign, auto-detect a `0x`/`0X` prefix as hexadecimal,
otherwise read the longest decimal-digit prefix, ignoring trailing
characters; `NaN` (here `none`) when no digit is found. -/
def jsParseInt (s : String) : Option Int :=
  let cs := s.toList.dropWhile isWs
  let (neg, cs) := match cs with
    | '-' :: t => (true, t)
    | '+' :: t => (false, t)
    | _ => (false, cs)
  let v := match cs with
    | '0' :: c :: t =>
      if c = 'x' ∨ c = 'X' then takeDigits hexVal 16 t 0 false
      else takeDigits digitVal 10 cs 0 false
    | _ => takeDigits digitVal 10 cs 0 false
  v.map fun n => if neg then -(n : Int) else (n : Int)

/-- ASCII lower-casing of one character, as `toLowerCase()` acts on the
(ASCII) range keyword. -/
def lowerChar (c : Char) : Char :=
  if 'A' ≤ c ∧ c ≤ 'Z' then Char.ofNat (c.toNat + 32) else c

/-- Holds (`true`) iff the string equals `"max"` case-insensitively
(`str.toLowerCase() === 'max'`). -/
def isMaxKeyword (s : String) : Bool :=
  s.toList.map lowerChar = ['m', 'a', 'x']

/-- JS `String.prototype.split('-')`: every dash is a separator and empty
pieces are kept. -/
def splitDash : List Char → List (List Char)
  | [] => [[]]
  | c :: rest =>
    if c = '-' then [] :: splitDash rest
    else
      match splitDash rest with
      | [] => [[c]]
      | p :: ps => (c :: p) :: ps

/-- Outcome of the range-argument parsing: `invalid` models the
`process.exit(1)` paths; in `ok`, `none` stands for the `"max"` keyword,
resolved against the head later. -/
inductive ParseOutcome where
  | invalid
  | ok (startB endB : Option Int)
deriving DecidableEq, Repr

/-- The range-argument parsing (lines 146-187): a string containing `'-'` is
split on every dash and the first two pieces are taken; an empty piece is
rejected; the end keyword `max` (case-insensitive) defers resolution; both
sides go through `parseInt`; `start > end` (both concrete) is rejected, and a
`NaN` on either side is rejected.  A dashless argument is either `max` or a
single block number used for both endpoints. -/
def parseRange (range : String) : ParseOutcome :=
  if range.toList.contains '-' then
    match ((splitDash range.toList).map String.mk).get? 0,
          ((splitDash range.toList).map String.mk).get? 1 with
    | some ss, some es =>
      if ss.isEmpty || es.isEmpty then .invalid
      else if isMaxKeyword es then
        match jsParseInt ss with
        | some s => .ok (some s) none
        | none => .invalid
      else
        match jsParseInt ss, jsParseInt es with
        | some s, some e => if s > e then .invalid else .ok (some s) (some e)
        | _, _ => .invalid
    | _, _ => .invalid
  else
    if isMaxKeyword range then .ok none none
    else
      match jsParseInt range with
      | some s => .ok (some s) (some s)
      | none => .invalid

/-- The ascending block numbers `for (let i = start; i <= end; i++)` visits
(empty when `start > end`).  Block numbers are non-negative whenever parsing
succeeded (a range side cannot contain `'-'` after the split), so `toNat`
is exact. -/
def blockList (s e : Int) : List Nat :=
  (List.range (e + 1 - s).toNat).map fun i => (s + i).toNat

/-- The outcome of one whole run: the process exit code, the address lines on
the primary output stream, and the cache/provider effect trace. -/
structure RunResult where
  exitCode : Nat
  output : List String
  effects : List Effect
deriving DecidableEq, Repr

/-- The program pipeline: argument parsing happens before `main()` is ever
invoked, so an invalid range exits with code 1 before any network or disk
activity; otherwise `main` resolves `max` to the observed head, clamps
either endpoint down to the head (lines 371-392, with a warning on the
diagnostic stream only), and runs the extraction loop, exiting 0. -/
def runProgram (w : World) (range : String) (head : Nat) : RunResult :=
  match parseRange range with
  | .invalid => ⟨1, [], []⟩
  | .ok s? e? =>
    let s := match s? with | none => (head : Int) | some v => v
    let e := match e? with | none => (head : Int) | some v => v
    let s := if s > (head : Int) then (head : Int) else s
    let e := if e > (head : Int) then (head : Int) else e
    let (_, out, effs) := processRange w (blockList s e)
    ⟨0, out, effs⟩

/-! ## Auxiliary definitions for the statements -/

/-- The delays the loop imposes after attempt `k` (0-based) fails: a
rate-limited error gets the rate-limit backoff and then additionally the
generic backoff; any other error gets the generic backoff computed before
the counter increments; an empty result gets the generic backoff computed
after the increment. -/
def delaysFor : RpcResult → Nat → List Nat
  | .err true, k => [min 60000 (5000 * 2 ^ k), min 30000 (1000 * 2 ^ k)]
  | .err false, k => [min 30000 (1000 * 2 ^ k)]
  | _, k => [min 30000 (1000 * 2 ^ (k + 1))]

/-- Modelled from the spec: the tagged value the specification's words
prescribe for an unbounded-precision integer field,
`kind: "bigint"` with the exact decimal string — for comparison with the
tag the source's `replacer` actually emits. -/
def specTagged (n : Int) : JVal :=
  .jobj [("kind", .jstr "bigint"), ("value", .jstr (decimalOfInt n))]

/-- The keys of an object value, in order (empty for non-objects). -/
def objKeys : JVal → List String
  | .jobj fs => fs.map Prod.fst
  | _ => []

/-- A sample block record with two unbounded-precision integer fields. -/
def sampleRecord : JVal :=
  .jobj [("number", .jbig 21000000), ("value", .jbig (10 ^ 30)),
         ("hash", .jstr "0xabc"), ("size", .jnum 7)]

/-- A world with nothing cached, an empty disk, a provider that always
returns null, and a functioning cache directory without zstd. -/
def emptyWorld : World :=
  ⟨true, false, [], [], fun _ => none, fun _ => none, fun _ _ => .ok none, fun _ _ => true⟩

/-- A world whose provider throws a rate-limited error on every attempt. -/
def rateLimitedWorld : World :=
  { emptyWorld with fetch := fun _ _ => .err true }

/-- A world where block 5's compressed cache entry exists but fails to
decode, and the provider then serves the block (zstd available). -/
def corruptWorld : World :=
  { emptyWorld with
    zstdAvailable := true
    compFile := fun m => if m = 5 then some none else none
    fetch := fun m k => if m = 5 ∧ k = 0 then .ok (some ⟨some []⟩) else .ok none }

/-- A world where block 5's uncompressed cache entry decodes to a record
without a `transactions` collection (disk payload shape is never
validated). -/
def noTxWorld : World :=
  { emptyWorld with legacyFile := fun m => if m = 5 then some (some ⟨none⟩) else none }

/-- A world with block 6 resident in the memory tier. -/
def memWorld : World :=
  { emptyWorld with memCache := [(6, ⟨some [⟨"s6", some "r6"⟩]⟩)] }

/-- The world of the spec's §8 scenario: blocks 100 and 102 each carry one
transaction with both addresses populated; block 101 has no transactions —
all resident in the memory tier. -/
def scenarioWorld (a1 a2 b1 b2 : String) : World :=
  { emptyWorld with
    memCache := [(100, ⟨some [⟨a1, some a2⟩]⟩), (101, ⟨some []⟩),
                 (102, ⟨some [⟨b1, some b2⟩]⟩)] }

/-! ## Lemmas: decimal printing parses back exactly -/

theorem digitVal_decChar {d : Nat} (h : d < 10) : digitVal (decChar d) = some d := by
  interval_cases d <;> decide

theorem parseDecCore_append (l1 l2 : List Char) (acc : Nat) :
    parseDecCore (l1 ++ l2) acc =
      match parseDecCore l1 acc with
      | some a => parseDecCore l2 a
      | none => none := by
  induction l1 generalizing acc with
  | nil => rfl
  | cons c cs ih =>
    simp only [List.cons_append, parseDecCore]
    cases digitVal c with
    | none => rfl
    | some d => exact ih _

theorem natDigits_ne_nil (n : Nat) : natDigits n ≠ [] := by
  rw [natDigits]; split <;> simp

theorem mem_natDigits_digit (n : Nat) : ∀ c ∈ natDigits n, (digitVal c).isSome = true := by
  induction n using Nat.strong_induction_on with
  | _ n ih =>
    intro c hc
    rw [natDigits] at hc
    split at hc
    · rename_i h
      simp only [List.mem_singleton] at hc
      subst hc
      rw [digitVal_decChar h]; rfl
    · rename_i h
      rcases List.mem_append.mp hc with h1 | h2
      · exact ih (n / 10) (Nat.div_lt_self (by omega) (by omega)) c h1
      · simp only [List.mem_singleton] at h2
        subst h2
        rw [digitVal_decChar (Nat.mod_lt _ (by omega))]; rfl

theorem parseDecCore_natDigits (n : Nat) :
    ∀ acc, parseDecCore (natDigits n) acc =
      some (acc * 10 ^ (natDigits n).length + n) := by
  induction n using Nat.strong_induction_on with
  | _ n ih =>
    intro acc
    rw [natDigits]
    split
    · rename_i h
      simp [parseDecCore, digitVal_decChar h]
    · rename_i h
      rw [parseDecCore_append, ih (n / 10) (Nat.div_lt_self (by omega) (by omega))]
      simp only [parseDecCore, digitVal_decChar (Nat.mod_lt n (by omega))]
      have hdm := Nat.div_add_mod n 10
      rw [List.length_append, List.length_singleton, pow_succ]
      congr 1
      set A := acc * 10 ^ (natDigits (n / 10)).length with hA
      rw [← Nat.mul_assoc]
      omega

theorem parseDecDigits_natDigits (n : Nat) : parseDecDigits (natDigits n) = some n := by
  unfold parseDecDigits
  rw [if_neg (by simp [List.isEmpty_iff, natDigits_ne_nil])]
  rw [parseDecCore_natDigits]
  simp

theorem digit_facts {c : Char} (h : (digitVal c).isSome = true) :
    isWs c = false ∧ c ≠ '-' ∧ c ≠ '+' := by
  unfold digitVal at h
  split at h
  · rename_i hc
    refine ⟨?_, ?_, ?_⟩
    · unfold isWs
      simp only [Bool.or_eq_false_iff, decide_eq_false_iff_not]
      refine ⟨⟨⟨?_, ?_⟩, ?_⟩, ?_⟩ <;> rintro rfl <;> exact absurd hc (by decide)
    · rintro rfl; exact absurd hc (by decide)
    · rintro rfl; exact absurd hc (by decide)
  · simp at h

theorem dropWhile_ws_eq_self {l : List Char} (h : ∀ c ∈ l, isWs c = false) :
    l.dropWhile isWs = l := by
  cases l with
  | nil => rfl
  | cons c t => simp [List.dropWhile_cons, h c (by simp)]

theorem jsBigIntOfString_decimalOfNat (n : Nat) :
    jsBigIntOfString (decimalOfNat n) = some (n : Int) := by
  have hmem : ∀ c ∈ natDigits n, isWs c = false := fun c hc =>
    (digit_facts (mem_natDigits_digit n c hc)).1
  unfold jsBigIntOfString decimalOfNat
  rw [show (String.mk (natDigits n)).toList = natDigits n from rfl]
  rw [dropWhile_ws_eq_self hmem,
      dropWhile_ws_eq_self (fun c hc => hmem c (List.mem_reverse.mp hc)),
      List.reverse_reverse]
  cases hd : natDigits n with
  | nil => exact absurd hd (natDigits_ne_nil n)
  | cons c t =>
    have hds := mem_natDigits_digit n c (by rw [hd]; simp)
    have hf := digit_facts hds
    simp only [if_neg hf.2.1, if_neg hf.2.2]
    rw [← hd, parseDecDigits_natDigits]
    rfl

theorem jsBigIntOfString_decimalOfInt (i : Int) :
    jsBigIntOfString (decimalOfInt i) = some i := by
  cases i with
  | ofNat n => exact jsBigIntOfString_decimalOfNat n
  | negSucc n =>
    have hmem : ∀ c ∈ '-' :: natDigits (n + 1), isWs c = false := by
      intro c hc
      rcases List.mem_cons.mp hc with rfl | hc
      · decide
      · exact (digit_facts (mem_natDigits_digit (n + 1) c hc)).1
    unfold decimalOfInt jsBigIntOfString
    rw [show ("-" ++ decimalOfNat (n + 1)).toList = '-' :: natDigits (n + 1) from rfl]
    rw [dropWhile_ws_eq_self hmem,
        dropWhile_ws_eq_self (fun c hc => hmem c (List.mem_reverse.mp hc)),
        List.reverse_reverse]
    simp only [if_pos rfl]
    rw [parseDecDigits_natDigits]
    simp [Int.negSucc_eq]

/-! ## Lemmas: codec round-trip -/

mutual
theorem decode_encodeVal : ∀ x : JVal, wfVal x = true → decodeVal (encodeVal x) = some x
  | .jnull, _ => rfl
  | .jbool _, _ => rfl
  | .jnum _, _ => rfl
  | .jstr _, _ => rfl
  | .jbig n, _ => by
    have h1 : decodeVal (encodeVal (.jbig n)) =
        (jsBigIntOfString (decimalOfInt n)).map .jbig := rfl
    rw [h1, jsBigIntOfString_decimalOfInt]
    rfl
  | .jarr xs, h => by
    have h' : wfList xs = true := by simpa [wfVal] using h
    simp only [encodeVal, decodeVal]
    rw [decode_encodeList xs h']
    rfl
  | .jobj fs, h => by
    have hparts : notTagShaped fs = true ∧ wfFields fs = true := by
      simp only [wfVal, Bool.and_eq_true] at h
      exact ⟨h.1.2, h.2⟩
    simp only [encodeVal, decodeVal]
    rw [decode_encodeFields fs hparts.2]
    split
    · rename_i heq
      simp at heq
    · rename_i fs' heq
      injection heq with heq'
      subst heq'
      split
      · rename_i heq2
        have ht := hparts.1
        unfold notTagShaped at ht
        rw [heq2] at ht
        simp at ht
      · rfl

theorem decode_encodeList : ∀ xs : List JVal, wfList xs = true →
    decodeList (encodeList xs) = some xs
  | [], _ => rfl
  | x :: xs, h => by
    have hx : wfVal x = true ∧ wfList xs = true := by
      simpa [wfList, Bool.and_eq_true] using h
    simp only [encodeList, decodeList]
    rw [decode_encodeVal x hx.1, decode_encodeList xs hx.2]

theorem decode_encodeFields : ∀ fs : List (String × JVal), wfFields fs = true →
    decodeFields (encodeFields fs) = some fs
  | [], _ => rfl
  | (k, v) :: fs, h => by
    have hx : wfVal v = true ∧ wfFields fs = true := by
      simpa [wfFields, Bool.and_eq_true] using h
    simp only [encodeFields, decodeFields]
    rw [decode_encodeVal v hx.1, decode_encodeFields fs hx.2]
end

mutual
theorem noBig_encodeVal : ∀ x : JVal, noBig (encodeVal x) = true
  | .jnull => rfl
  | .jbool _ => rfl
  | .jnum _ => rfl
  | .jstr _ => rfl
  | .jbig _ => rfl
  | .jarr xs => by
    simp only [encodeVal, noBig]
    exact noBig_encodeList xs
  | .jobj fs => by
    simp only [encodeVal, noBig]
    exact noBig_encodeFields fs

theorem noBig_encodeList : ∀ xs : List JVal, noBigList (encodeList xs) = true
  | [] => rfl
  | x :: xs => by
    simp only [encodeList, noBigList, Bool.and_eq_true]
    exact ⟨noBig_encodeVal x, noBig_encodeList xs⟩

theorem noBig_encodeFields : ∀ fs : List (String × JVal), noBigFields (encodeFields fs) = true
  | [] => rfl
  | (_, v) :: fs => by
    simp only [encodeFields, noBigFields, Bool.and_eq_true]
    exact ⟨noBig_encodeVal v, noBig_encodeFields fs⟩
end

/-! ## Claim C1: codec round-trip -/

/-- C1: for every well-formed block record `x` (no plain object of `x` is
already shaped like the BigInt tag — true of every provider record),
`decode(encode(x))` reproduces the record, hence every unbounded-precision
integer field, exactly (the tag carries the exact decimal string and is
reconstituted without any floating-point intermediate), and
`encode(decode(encode(x)))` is byte-identical to `encode(x)`. -/
theorem codec_roundtrip (x : JVal) (h : wfVal x = true) :
    decodeVal (encodeVal x) = some x ∧
    (decodeVal (encodeVal x)).map encode = some (encode x) := by
  have h1 := decode_encodeVal x h
  exact ⟨h1, by rw [h1]; rfl⟩

/-- Witness for `codec_roundtrip` at a record with two BigInt fields. -/
theorem codec_roundtrip_witness :
    wfVal sampleRecord = true ∧
    (decodeVal (encodeVal sampleRecord) = some sampleRecord ∧
      (decodeVal (encodeVal sampleRecord)).map encode = some (encode sampleRecord)) :=
  ⟨by decide, codec_roundtrip sampleRecord (by decide)⟩

/-! ## Claim C5: the BigInt tag -/

/-- C5 counterexample: at the BigInt field value `5n`, the source's
`replacer` emits the tag object with key `type` and tag string `"BigInt"` —
not the `kind`/`"bigint"` form the claim states. -/
theorem tag_shape_cex :
    encodeVal (.jbig 5) =
      .jobj [("type", .jstr "BigInt"), ("value", .jstr (decimalOfInt 5))] ∧
    decimalOfInt 5 = "5" ∧
    objKeys (encodeVal (.jbig 5)) = ["type", "value"] ∧
    objKeys (specTagged 5) = ["kind", "value"] ∧
    encodeVal (.jbig 5) ≠ specTagged 5 := by
  refine ⟨rfl, by simp [decimalOfInt, decimalOfNat, natDigits, decChar], rfl, rfl, ?_⟩
  intro h
  have h2 := congrArg objKeys h
  rw [show objKeys (encodeVal (.jbig 5)) = ["type", "value"] from rfl,
      show objKeys (specTagged 5) = ["kind", "value"] from rfl] at h2
  exact absurd h2 (by decide)

/-- C5 amended: every unbounded-precision integer field is encoded as the
tagged object `type: "BigInt"` carrying the exact decimal string, and the
encoded form contains no native BigInt literal anywhere. -/
theorem bigint_tagging (n : Int) (x : JVal) :
    encodeVal (.jbig n) =
      .jobj [("type", .jstr "BigInt"), ("value", .jstr (decimalOfInt n))] ∧
    noBig (encodeVal x) = true :=
  ⟨rfl, noBig_encodeVal x⟩

/-! ## Lemmas: the cache model -/

theorem ensureShard_fields (w : World) (n : Nat) :
    (ensureShard w n).1.ready = w.ready ∧
    (ensureShard w n).1.zstdAvailable = w.zstdAvailable ∧
    (ensureShard w n).1.memCache = w.memCache ∧
    (ensureShard w n).1.compFile = w.compFile ∧
    (ensureShard w n).1.legacyFile = w.legacyFile ∧
    (ensureShard w n).1.fetch = w.fetch ∧
    (ensureShard w n).1.writeOk = w.writeOk := by
  by_cases h : (n / 1000000) ∈ w.shardDirs <;> simp [ensureShard, h]

theorem diskProbe_ensureShard (w : World) (n m : Nat) :
    diskProbe (ensureShard w n).1 m = diskProbe w m := by
  obtain ⟨h1, h2, _, h4, h5, _, _⟩ := ensureShard_fields w n
  unfold diskProbe
  rw [h1, h2, h4, h5]

theorem remoteCount_append (a b : List Effect) :
    remoteCount (a ++ b) = remoteCount a + remoteCount b := by
  simp [remoteCount, List.filter_append]

theorem writeCount_append (a b : List Effect) :
    writeCount (a ++ b) = writeCount a + writeCount b := by
  simp [writeCount, List.filter_append]

theorem sleepsOf_append (a b : List Effect) :
    sleepsOf (a ++ b) = sleepsOf a ++ sleepsOf b := by
  simp [sleepsOf, List.filterMap_append]

theorem ensureShard_counts (w : World) (n : Nat) :
    remoteCount (ensureShard w n).2 = 0 ∧ writeCount (ensureShard w n).2 = 0 ∧
    sleepsOf (ensureShard w n).2 = [] := by
  by_cases h : (n / 1000000) ∈ w.shardDirs <;>
    simp [ensureShard, h, remoteCount, writeCount, sleepsOf]

theorem diskProbe_counts (w : World) (n : Nat) :
    remoteCount (diskProbe w n).2 = 0 ∧ writeCount (diskProbe w n).2 = 0 ∧
    sleepsOf (diskProbe w n).2 = [] := by
  unfold diskProbe
  repeat' split
  all_goals simp [remoteCount, writeCount, sleepsOf]

theorem getBlock_mem_hit {w : World} {n : Nat} {b : BlockRecord}
    (hb : w.memCache.lookup n = some b) : getBlock w n = (some b, w, []) := by
  simp [getBlock, hb]

theorem getBlock_disk_hit {w : World} {n : Nat} {b : BlockRecord}
    (hm : w.memCache.lookup n = none) (hd : (diskProbe w n).1 = some b) :
    (getBlock w n).1 = some b ∧ remoteCount (getBlock w n).2.2 = 0 := by
  rcases hE : ensureShard w n with ⟨w1, e1⟩
  have hd1 : diskProbe w1 n = diskProbe w n := by
    have h := diskProbe_ensureShard w n n
    rw [hE] at h
    exact h
  rcases hD : diskProbe w n with ⟨r, eD⟩
  rw [hD] at hd
  simp at hd
  subst hd
  have hc1 := ensureShard_counts w n
  rw [hE] at hc1
  have hc2 := diskProbe_counts w n
  rw [hD] at hc2
  simp [getBlock, hm, hE, hd1, hD, remoteCount_append, hc1.1, hc2.1]

/-! ## Claim C2: tier order -/

/-- C2: if `n` is resident in the memory tier, `getBlock` returns it with no
effect at all (no disk read, no remote call); if the memory tier misses and
the disk probe decodes an entry, `getBlock` returns that entry with no
remote call; and a remote call happens only when both the memory tier and
the disk probe miss. -/
theorem cache_tier_order (w : World) (n : Nat) :
    (∀ b, w.memCache.lookup n = some b → getBlock w n = (some b, w, [])) ∧
    (∀ b, w.memCache.lookup n = none → (diskProbe w n).1 = some b →
      (getBlock w n).1 = some b ∧ remoteCount (getBlock w n).2.2 = 0) ∧
    (0 < remoteCount (getBlock w n).2.2 →
      w.memCache.lookup n = none ∧ (diskProbe w n).1 = none) := by
  refine ⟨fun b hb => getBlock_mem_hit hb, fun b hm hd => getBlock_disk_hit hm hd, ?_⟩
  intro h
  rcases hm : w.memCache.lookup n with _ | b
  · rcases hD : diskProbe w n with ⟨r, eD⟩
    rcases r with _ | b
    · exact ⟨rfl, rfl⟩
    · have h2 := (getBlock_disk_hit hm (by rw [hD])).2
      omega
  · have h1 := getBlock_mem_hit hm
    rw [h1] at h
    simp [remoteCount] at h

theorem retryLoop_fail (n : Nat) : ∀ (fuel k : Nat) (w : World),
    (∀ j, j < fuel → rpcFails (w.fetch n (k + j)) = true) →
    (retryLoop n fuel k w).1 = none ∧
    remoteCount (retryLoop n fuel k w).2.2 = fuel ∧
    (retryLoop n fuel k w).2.1 = w ∧
    sleepsOf (retryLoop n fuel k w).2.2 =
      (List.range' k fuel).flatMap (fun j => delaysFor (w.fetch n j) j)
  | 0, k, w, _ => ⟨rfl, rfl, rfl, rfl⟩
  | fuel + 1, k, w, h => by
    have h0 : rpcFails (w.fetch n k) = true := by simpa using h 0 (by omega)
    have hrec : ∀ j, j < fuel → rpcFails (w.fetch n ((k + 1) + j)) = true := by
      intro j hj
      have hx := h (j + 1) (by omega)
      have e : k + (j + 1) = k + 1 + j := by omega
      rwa [e] at hx
    have ih := retryLoop_fail n fuel (k + 1) w hrec
    rcases hr : retryLoop n fuel (k + 1) w with ⟨r, w', e'⟩
    rw [hr] at ih
    rcases hf : w.fetch n k with b? | rl
    · rcases b? with _ | b
      · simp only [retryLoop, hf, hr]
        refine ⟨ih.1, ?_, ih.2.2.1, ?_⟩
        · show remoteCount e' + 1 = fuel + 1
          rw [ih.2.1]
        · show min 30000 (1000 * 2 ^ (k + 1)) :: sleepsOf e' =
            delaysFor (w.fetch n k) k ++
              (List.range' (k + 1) fuel).flatMap (fun j => delaysFor (w.fetch n j) j)
          rw [hf, ih.2.2.2]
          rfl
      · rw [hf] at h0
        simp only [rpcFails, Option.isNone_iff_eq_none] at h0
        simp only [retryLoop, hf, h0, hr]
        refine ⟨ih.1, ?_, ih.2.2.1, ?_⟩
        · show remoteCount e' + 1 = fuel + 1
          rw [ih.2.1]
        · show min 30000 (1000 * 2 ^ (k + 1)) :: sleepsOf e' =
            delaysFor (w.fetch n k) k ++
              (List.range' (k + 1) fuel).flatMap (fun j => delaysFor (w.fetch n j) j)
          rw [hf, ih.2.2.2]
          rfl
    · cases rl
      · simp only [retryLoop, hf, hr]
        refine ⟨ih.1, ?_, ih.2.2.1, ?_⟩
        · show remoteCount e' + 1 = fuel + 1
          rw [ih.2.1]
        · show min 30000 (1000 * 2 ^ k) :: sleepsOf e' =
            delaysFor (w.fetch n k) k ++
              (List.range' (k + 1) fuel).flatMap (fun j => delaysFor (w.fetch n j) j)
          rw [hf, ih.2.2.2]
          rfl
      · simp only [retryLoop, hf, hr]
        refine ⟨ih.1, ?_, ih.2.2.1, ?_⟩
        · show remoteCount e' + 1 = fuel + 1
          rw [ih.2.1]
        · show min 60000 (5000 * 2 ^ k) :: min 30000 (1000 * 2 ^ k) :: sleepsOf e' =
            delaysFor (w.fetch n k) k ++
              (List.range' (k + 1) fuel).flatMap (fun j => delaysFor (w.fetch n j) j)
          rw [hf, ih.2.2.2]
          rfl

theorem getBlock_all_fail (w : World) (n : Nat)
    (hmem : w.memCache.lookup n = none)
    (hdisk : (diskProbe w n).1 = none)
    (hfail : ∀ k, rpcFails (w.fetch n k) = true) :
    (getBlock w n).1 = none ∧
    remoteCount (getBlock w n).2.2 = 3 ∧
    sleepsOf (getBlock w n).2.2 =
      (List.range' 0 3).flatMap (fun j => delaysFor (w.fetch n j) j) := by
  rcases hE : ensureShard w n with ⟨w1, e1⟩
  have hfields := ensureShard_fields w n
  rw [hE] at hfields
  have hd1 : diskProbe w1 n = diskProbe w n := by
    have hx := diskProbe_ensureShard w n n
    rw [hE] at hx
    exact hx
  rcases hD : diskProbe w n with ⟨r0, eD⟩
  rw [hD] at hdisk
  simp at hdisk
  subst hdisk
  have hf1 : ∀ j, j < 3 → rpcFails (w1.fetch n (0 + j)) = true := by
    intro j _
    rw [hfields.2.2.2.2.2.1]
    simpa using hfail j
  have hloop := retryLoop_fail n 3 0 w1 hf1
  rcases hL : retryLoop n 3 0 w1 with ⟨r, w2, eR⟩
  rw [hL] at hloop
  have hg : getBlock w n = (r, w2, e1 ++ eD ++ eR) := by
    simp [getBlock, hmem, hE, hd1, hD, hL]
  rw [hg]
  have hc1 := ensureShard_counts w n
  rw [hE] at hc1
  have hc2 := diskProbe_counts w n
  rw [hD] at hc2
  refine ⟨hloop.1, ?_, ?_⟩
  · simp [remoteCount_append, hc1.1, hc2.1, hloop.2.1]
  · rw [sleepsOf_append, sleepsOf_append, hc1.2.2, hc2.2.2, hloop.2.2.2]
    rw [show w1.fetch = w.fetch from hfields.2.2.2.2.2.1]
    rfl

/-! ## Claim C3: retry ceiling -/

/-- C3: when the memory and disk tiers miss and every remote attempt fails,
`getBlock` makes exactly 3 provider attempts, yields `none` (unavailable)
rather than throwing, and the main loop emits zero address lines for that
block and continues with the remaining block numbers. -/
theorem retry_ceiling (w : World) (n : Nat)
    (hmem : w.memCache.lookup n = none)
    (hdisk : (diskProbe w n).1 = none)
    (hfail : ∀ k, rpcFails (w.fetch n k) = true) :
    (getBlock w n).1 = none ∧
    remoteCount (getBlock w n).2.2 = 3 ∧
    ∀ rest, (processRange w (n :: rest)).2.1 =
      (processRange (getBlock w n).2.1 rest).2.1 := by
  have h := getBlock_all_fail w n hmem hdisk hfail
  refine ⟨h.1, h.2.1, ?_⟩
  intro rest
  rcases hg : getBlock w n with ⟨r, w2, eG⟩
  rw [hg] at h
  rcases h with ⟨hr, -, -⟩
  subst hr
  rcases hp : processRange w2 rest with ⟨w3, out, e3⟩
  simp [processRange, hg, hp, extractBlock]

/-- Witness for `retry_ceiling`: a run against an always-null provider. -/
theorem retry_ceiling_witness :
    (getBlock emptyWorld 5).1 = none ∧
    remoteCount (getBlock emptyWorld 5).2.2 = 3 ∧
    (processRange emptyWorld [5, 6]).2.1 =
      (processRange (getBlock emptyWorld 5).2.1 [6]).2.1 := by
  have h := retry_ceiling emptyWorld 5 (by decide) (by decide) (fun k => rfl)
  exact ⟨h.1, h.2.1, h.2.2 [6]⟩

/-! ## Claim C4: backoff policy -/

/-- C4 counterexample: with a provider that is rate-limited on every
attempt, the three failed attempts impose six delays, not three — after
each rate-limited failure the loop sleeps the rate-limit backoff and then
additionally the generic backoff — refuting "exactly one delay per failed
attempt". -/
theorem rate_limit_double_delay_cex :
    remoteCount (getBlock rateLimitedWorld 5).2.2 = 3 ∧
    sleepsOf (getBlock rateLimitedWorld 5).2.2 =
      [5000, 1000, 10000, 2000, 20000, 4000] ∧
    (sleepsOf (getBlock rateLimitedWorld 5).2.2).length ≠
      remoteCount (getBlock rateLimitedWorld 5).2.2 :=
  ⟨by decide, by decide, by decide⟩

/-- C4 amended: after an `EmptyResult` failure on attempt `k` exactly one
delay of `min(30s, 1s·2^(k+1))`; after a non-rate-limited `TransportError`
exactly one delay of `min(30s, 1s·2^k)`; after a rate-limited
`TransportError` two delays — `min(60s, 5s·2^k)` then additionally
`min(30s, 1s·2^k)` — in attempt order. -/
theorem backoff_schedule (w : World) (n : Nat)
    (hmem : w.memCache.lookup n = none)
    (hdisk : (diskProbe w n).1 = none)
    (hfail : ∀ k, rpcFails (w.fetch n k) = true) :
    sleepsOf (getBlock w n).2.2 =
      delaysFor (w.fetch n 0) 0 ++ delaysFor (w.fetch n 1) 1 ++
        delaysFor (w.fetch n 2) 2 := by
  have h := (getBlock_all_fail w n hmem hdisk hfail).2.2
  rw [h]
  simp [List.range']

/-- Witness for `backoff_schedule` against an always-rate-limited
provider. -/
theorem backoff_schedule_witness :
    sleepsOf (getBlock rateLimitedWorld 5).2.2 =
      delaysFor (rateLimitedWorld.fetch 5 0) 0 ++
        delaysFor (rateLimitedWorld.fetch 5 1) 1 ++
        delaysFor (rateLimitedWorld.fetch 5 2) 2 :=
  backoff_schedule rateLimitedWorld 5 (by decide) (by decide) (fun k => rfl)

theorem not_writeDisk_mem_ensureShard (w : World) (n : Nat) (c : Bool) (m : Nat) :
    Effect.writeDisk c m ∉ (ensureShard w n).2 := by
  by_cases h : (n / 1000000) ∈ w.shardDirs <;> simp [ensureShard, h]

theorem not_writeDisk_mem_diskProbe (w : World) (n : Nat) (c : Bool) (m : Nat) :
    Effect.writeDisk c m ∉ (diskProbe w n).2 := by
  unfold diskProbe
  repeat' split
  all_goals simp

theorem writeThrough_write (w : World) (n : Nat) (b : BlockRecord) (c : Bool) (m : Nat)
    (h : Effect.writeDisk c m ∈ (writeThrough w n b).2) :
    m = n ∧ w.ready = true ∧ (c = true → w.zstdAvailable = true) := by
  by_cases hr : w.ready = true
  case neg =>
    unfold writeThrough at h
    rw [if_neg hr] at h
    simp at h
  case pos =>
    unfold writeThrough at h
    rw [if_pos hr] at h
    rcases hE : ensureShard w n with ⟨w1, e1⟩
    rw [hE] at h
    dsimp only at h
    have hfields := ensureShard_fields w n
    rw [hE] at hfields
    have hnw : Effect.writeDisk c m ∉ e1 := by
      have hx := not_writeDisk_mem_ensureShard w n c m
      rw [hE] at hx
      exact hx
    by_cases hz : w1.zstdAvailable = true
    · rw [if_pos hz] at h
      by_cases hw1 : w1.writeOk true n = true
      · rw [if_pos hw1] at h
        simp [List.mem_append] at h
        rcases h with h | ⟨hc, hm'⟩
        · exact absurd h hnw
        · subst hc; subst hm'
          exact ⟨rfl, hr, fun _ => by rw [← hfields.2.1]; exact hz⟩
      · rw [if_neg hw1] at h
        by_cases hw2 : w1.writeOk false n = true
        · rw [if_pos hw2] at h
          simp [List.mem_append] at h
          rcases h with h | ⟨hc, hm'⟩
          · exact absurd h hnw
          · subst hc; subst hm'
            exact ⟨rfl, hr, fun hcc => by cases hcc⟩
        · rw [if_neg hw2] at h
          exact absurd h hnw
    · rw [if_neg hz] at h
      by_cases hw2 : w1.writeOk false n = true
      · rw [if_pos hw2] at h
        simp [List.mem_append] at h
        rcases h with h | ⟨hc, hm'⟩
        · exact absurd h hnw
        · subst hc; subst hm'
          exact ⟨rfl, hr, fun hcc => by cases hcc⟩
      · rw [if_neg hw2] at h
        exact absurd h hnw

theorem retryLoop_write (n : Nat) : ∀ (fuel k : Nat) (w : World) (c : Bool) (m : Nat),
    Effect.writeDisk c m ∈ (retryLoop n fuel k w).2.2 →
    m = n ∧ w.ready = true ∧ (c = true → w.zstdAvailable = true)
  | 0, _, w, c, m, h => by simp [retryLoop] at h
  | fuel + 1, k, w, c, m, h => by
    rcases hf : w.fetch n k with b? | rl
    · rcases b? with _ | b
      · rcases hr : retryLoop n fuel (k + 1) w with ⟨r, w', e'⟩
        simp only [retryLoop, hf, hr] at h
        simp at h
        exact retryLoop_write n fuel (k + 1) w c m (by rw [hr]; exact h)
      · rcases hb : b.transactions with _ | txs
        · rcases hr : retryLoop n fuel (k + 1) w with ⟨r, w', e'⟩
          simp only [retryLoop, hf, hb, hr] at h
          simp at h
          exact retryLoop_write n fuel (k + 1) w c m (by rw [hr]; exact h)
        · rcases hW : writeThrough { w with memCache := (n, b) :: w.memCache } n b
            with ⟨w2, eW⟩
          simp only [retryLoop, hf, hb, hW] at h
          simp at h
          exact writeThrough_write { w with memCache := (n, b) :: w.memCache } n b c m
            (by rw [hW]; exact h)
    · rcases hr : retryLoop n fuel (k + 1) w with ⟨r, w', e'⟩
      simp only [retryLoop, hf, hr] at h
      cases rl <;> simp at h <;>
        exact retryLoop_write n fuel (k + 1) w c m (by rw [hr]; exact h)

/-! ## Claim C6: append-only disk cache -/

/-- C6 counterexample: block 5's compressed entry exists on disk but fails
to decode; the successful refetch then rewrites that existing file — the
write-through never checks for an existing entry. -/
theorem append_only_cex :
    (corruptWorld.compFile 5).isSome = true ∧
    Effect.readDisk true 5 ∈ (getBlock corruptWorld 5).2.2 ∧
    Effect.writeDisk true 5 ∈ (getBlock corruptWorld 5).2.2 :=
  ⟨by decide, by decide, by decide⟩

/-- C6 amended: the system never deletes a disk entry (the model records
every file operation and `getBlock` performs none), and it rewrites an
existing entry only in the one case the claim excludes: when that entry
failed to decode during this call (a successfully decoding entry is
returned and never overwritten). -/
theorem rewrite_requires_decode_failure (w : World) (n : Nat) (c : Bool)
    (h : Effect.writeDisk c n ∈ (getBlock w n).2.2) :
    (if c then w.compFile n else w.legacyFile n) = none ∨
    (if c then w.compFile n else w.legacyFile n) = some none := by
  rcases hm : w.memCache.lookup n with _ | b0
  case some =>
    rw [getBlock_mem_hit hm] at h
    simp at h
  case none =>
    rcases hE : ensureShard w n with ⟨w1, e1⟩
    have hfields := ensureShard_fields w n
    rw [hE] at hfields
    have hd1 : diskProbe w1 n = diskProbe w n := by
      have hx := diskProbe_ensureShard w n n
      rw [hE] at hx
      exact hx
    have hnE : Effect.writeDisk c n ∉ e1 := by
      have hx := not_writeDisk_mem_ensureShard w n c n
      rw [hE] at hx
      exact hx
    rcases hD : diskProbe w n with ⟨r0, eD⟩
    have hnD : Effect.writeDisk c n ∉ eD := by
      have hx := not_writeDisk_mem_diskProbe w n c n
      rw [hD] at hx
      exact hx
    rcases r0 with _ | b1
    · rcases hL : retryLoop n 3 0 w1 with ⟨r, w2, eR⟩
      have hg : getBlock w n = (r, w2, e1 ++ eD ++ eR) := by
        simp [getBlock, hm, hE, hd1, hD, hL]
      rw [hg] at h
      simp only [List.mem_append] at h
      rcases h with (h | h) | h
      · exact absurd h hnE
      · exact absurd h hnD
      · have hw := retryLoop_write n 3 0 w1 c n (by rw [hL]; exact h)
        have hready : w.ready = true := by rw [← hfields.1]; exact hw.2.1
        have hzc : c = true → w.zstdAvailable = true := fun hc => by
          rw [← hfields.2.1]; exact hw.2.2 hc
        unfold diskProbe at hD
        rw [if_pos hready] at hD
        cases c
        · -- legacy write: show the legacy entry was absent or corrupt
          by_cases hz : w.zstdAvailable = true
          · rw [if_pos hz] at hD
            rcases hcf : w.compFile n with _ | cf
            · rw [hcf] at hD
              rcases hlf : w.legacyFile n with _ | lf
              · simp [hlf]
              · rcases lf with _ | bb
                · simp [hlf]
                · rw [hlf] at hD
                  simp at hD
            · rcases cf with _ | bb
              · rw [hcf] at hD
                rcases hlf : w.legacyFile n with _ | lf
                · simp [hlf]
                · rcases lf with _ | bb2
                  · simp [hlf]
                  · rw [hlf] at hD
                    simp at hD
              · rw [hcf] at hD
                simp at hD
          · rw [if_neg hz] at hD
            rcases hlf : w.legacyFile n with _ | lf
            · simp [hlf]
            · rcases lf with _ | bb
              · simp [hlf]
              · rw [hlf] at hD
                simp at hD
        · -- compressed write: show the compressed entry was absent or corrupt
          have hz := hzc rfl
          rw [if_pos hz] at hD
          rcases hcf : w.compFile n with _ | cf
          · simp [hcf]
          · rcases cf with _ | bb
            · simp [hcf]
            · rw [hcf] at hD
              simp at hD
    · have hg : getBlock w n =
          (some b1, { w1 with memCache := (n, b1) :: w1.memCache }, e1 ++ eD) := by
        simp [getBlock, hm, hE, hd1, hD]
      rw [hg] at h
      simp only [List.mem_append] at h
      rcases h with h | h
      · exact absurd h hnE
      · exact absurd h hnD

/-- Witness for `rewrite_requires_decode_failure` at the corrupt-entry
world. -/
theorem rewrite_requires_decode_failure_witness :
    (if true then corruptWorld.compFile 5 else corruptWorld.legacyFile 5) = none ∨
    (if true then corruptWorld.compFile 5 else corruptWorld.legacyFile 5) = some none :=
  rewrite_requires_decode_failure corruptWorld 5 true (by decide)

theorem getBlock_miss_effects (w : World) (n : Nat) (hm : w.memCache.lookup n = none) :
    ∃ rest, (getBlock w n).2.2 = (ensureShard w n).2 ++ rest := by
  rcases hE : ensureShard w n with ⟨w1, e1⟩
  rcases hD : diskProbe w1 n with ⟨r0, eD⟩
  rcases r0 with _ | b1
  · rcases hL : retryLoop n 3 0 w1 with ⟨r, w2, eR⟩
    exact ⟨eD ++ eR, by simp [getBlock, hm, hE, hD, hL]⟩
  · exact ⟨eD, by simp [getBlock, hm, hE, hD]⟩

/-! ## Claim C9: shard directory creation -/

/-- C9 counterexample: a `getBlock` call that misses every tier — it reads
nothing from disk and never writes — still creates the shard directory:
`getShardedPath` ensures the directory eagerly, before the disk probe, on
every memory miss. -/
theorem eager_shard_dir_cex :
    writeCount (getBlock emptyWorld 7).2.2 = 0 ∧
    readCount (getBlock emptyWorld 7).2.2 = 0 ∧
    Effect.mkdirDir 0 ∈ (getBlock emptyWorld 7).2.2 :=
  ⟨by decide, by decide, by decide⟩

/-- C9 amended: a memory-tier hit creates no directory (no effect at all);
on every memory miss the shard directory is ensured — created whenever it
does not already exist — before the disk tier is even probed, whether or
not anything is ever written into the shard. -/
theorem shard_dir_on_miss (w : World) (n : Nat) :
    (∀ b, w.memCache.lookup n = some b → (getBlock w n).2.2 = []) ∧
    (w.memCache.lookup n = none → (n / 1000000) ∉ w.shardDirs →
      Effect.mkdirDir (n / 1000000) ∈ (getBlock w n).2.2) := by
  constructor
  · intro b hb
    rw [getBlock_mem_hit hb]
  · intro hm hs
    obtain ⟨rest, hrest⟩ := getBlock_miss_effects w n hm
    have h2 : (ensureShard w n).2 = [Effect.mkdirDir (n / 1000000)] := by
      simp [ensureShard, hs]
    rw [hrest, h2]
    simp

/-- Witness for `shard_dir_on_miss`: a memory hit is silent, a full miss
creates shard directory 0. -/
theorem shard_dir_on_miss_witness :
    (getBlock memWorld 6).2.2 = [] ∧
    Effect.mkdirDir (7 / 1000000) ∈ (getBlock emptyWorld 7).2.2 :=
  ⟨(shard_dir_on_miss memWorld 6).1 ⟨some [⟨"s6", some "r6"⟩]⟩ (by decide),
   (shard_dir_on_miss emptyWorld 7).2 (by decide) (by decide)⟩

/-- Witness for `cache_tier_order`: a memory hit returns silently, and a
decodable disk entry is served without any remote call. -/
theorem cache_tier_order_witness :
    getBlock memWorld 6 = (some ⟨some [⟨"s6", some "r6"⟩]⟩, memWorld, []) ∧
    ((getBlock noTxWorld 5).1 = some ⟨none⟩ ∧
      remoteCount (getBlock noTxWorld 5).2.2 = 0) :=
  ⟨(cache_tier_order memWorld 6).1 ⟨some [⟨"s6", some "r6"⟩]⟩ (by decide),
   (cache_tier_order noTxWorld 5).2.1 ⟨none⟩ (by decide) (by decide)⟩

/-! ## Claim C10: extraction totality -/

/-- C10: whatever `getBlock` yields — `null`, or a record lacking a
`transactions` collection (possible for unvalidated disk payloads) — the
main loop emits no addresses for that block and continues with the
remaining block numbers without failing. -/
theorem extraction_total (w : World) (n : Nat) (rest : List Nat)
    (h : (getBlock w n).1 = none ∨
      ∃ b, (getBlock w n).1 = some b ∧ b.transactions = none) :
    (processRange w (n :: rest)).2.1 =
      (processRange (getBlock w n).2.1 rest).2.1 := by
  rcases hg : getBlock w n with ⟨r, w1, e1⟩
  rcases hp : processRange w1 rest with ⟨w2, out, e2⟩
  rw [hg] at h
  have hex : extractBlock r = [] := by
    rcases h with h | ⟨b, hb, ht⟩
    · simp at h
      subst h
      rfl
    · simp at hb
      subst hb
      simp [extractBlock, ht]
  simp [processRange, hg, hp, hex]

/-- Witness for `extraction_total`: a disk entry decoding to a record with
no `transactions` collection is skipped and the run continues. -/
theorem extraction_total_witness :
    (processRange noTxWorld [5]).2.1 =
      (processRange (getBlock noTxWorld 5).2.1 []).2.1 :=
  extraction_total noTxWorld 5 [] (Or.inr ⟨⟨none⟩, by decide, rfl⟩)

/-! ## Claim C7: range validation -/

/-- C7 counterexample: the keyword the program accepts is `max`, not
`latest`: both `"latest"` and `"5-latest"` are rejected (ValidationError,
exit 1) while `"max"` and `"5-max"` are accepted. -/
theorem latest_keyword_cex :
    parseRange "latest" = ParseOutcome.invalid ∧
    parseRange "5-latest" = ParseOutcome.invalid ∧
    parseRange "max" = ParseOutcome.ok none none ∧
    parseRange "5-max" = ParseOutcome.ok (some 5) none :=
  ⟨by decide, by decide, by decide, by decide⟩

/-- C7 amended: each side must parse via JS `parseInt` or be the literal
`max` (not `latest`); an argument with no leading integer, such as
`"abc"`, fails with exit code 1, zero address lines and no cache or
provider activity; whenever both sides are concrete, the accepted range
satisfies start ≤ end. -/
theorem range_validation (w : World) (head : Nat) :
    runProgram w "abc" head = ⟨1, [], []⟩ ∧
    parseRange "max" = ParseOutcome.ok none none ∧
    parseRange "7-max" = ParseOutcome.ok (some 7) none ∧
    (∀ r s e, parseRange r = ParseOutcome.ok (some s) (some e) → s ≤ e) := by
  refine ⟨?_, by decide, by decide, ?_⟩
  · simp only [runProgram, show parseRange "abc" = ParseOutcome.invalid from by decide]
  · intro r s e h
    unfold parseRange at h
    repeat' split at h
    all_goals simp at h
    all_goals omega

/-- Witness for `range_validation`: the `"abc"` scenario and an accepted
concrete pair. -/
theorem range_validation_witness :
    runProgram emptyWorld "abc" 10 = ⟨1, [], []⟩ ∧ (3 : Int) ≤ 9 :=
  ⟨(range_validation emptyWorld 10).1,
   (range_validation emptyWorld 10).2.2.2 "3-9" 3 9 (by decide)⟩

/-! ## Claim C8: extraction order -/

/-- C8: extraction walks a block's transactions in order, emitting the
sender and then, when present, the recipient immediately after, with no
deduplication, ascending over blocks; the spec's §8 scenario — range
`"100-102"`, block 101 without transactions, blocks 100 and 102 each one
fully-populated transaction — prints exactly
`[100.from, 100.to, 102.from, 102.to]`. -/
theorem extraction_order (a1 a2 b1 b2 : String) :
    runProgram (scenarioWorld a1 a2 b1 b2) "100-102" 200 =
      ⟨0, [a1, a2, b1, b2], []⟩ ∧
    ∀ (w : World) (n : Nat) (rest : List Nat) (txs : List Tx),
      w.memCache.lookup n = some ⟨some txs⟩ →
      (processRange w (n :: rest)).2.1 =
        (txs.flatMap fun t => t.fromAddr :: t.toAddr.toList) ++
          (processRange w rest).2.1 := by
  constructor
  · rfl
  · intro w n rest txs hmem
    rcases hp : processRange w rest with ⟨w2, out, e2⟩
    simp [processRange, getBlock_mem_hit hmem, hp, extractBlock]

/-- Witness for `extraction_order` at concrete addresses. -/
theorem extraction_order_witness :
    runProgram (scenarioWorld "a" "b" "x" "y") "100-102" 200 =
      ⟨0, ["a", "b", "x", "y"], []⟩ ∧
    (processRange (scenarioWorld "a" "b" "x" "y") [100]).2.1 =
      (([⟨"a", some "b"⟩] : List Tx).flatMap fun t => t.fromAddr :: t.toAddr.toList) ++
        (processRange (scenarioWorld "a" "b" "x" "y") []).2.1 :=
  ⟨(extraction_order "a" "b" "x" "y").1,
   (extraction_order "a" "b" "x" "y").2 (scenarioWorld "a" "b" "x" "y") 100 []
     [⟨"a", some "b"⟩] (by decide)⟩

end InfuraExtract
